import Mathlib

/-!
Verification of the Qwen tool-call converter (src/converters/qwen.py).

The Python code is embedded shallowly over `List Char`.  The regex scans
`re.findall(r'<function=(.*?)>(.*?)</function>', s, re.DOTALL)`,
`re.search(r'<function=.*?</function>', s, re.DOTALL)` and
`re.sub(r'<tool_call>.*?</tool_call>', '', s, flags=re.DOTALL)` are modelled by
explicit leftmost-substring scanners: a non-greedy group `(.*?)>` stops at the
first `>` after the opening literal, a non-greedy `(.*?)CLOSE` stops at the
first occurrence of `CLOSE`, and when no such occurrence exists after the
first candidate there is none after any later candidate either, so the whole
scan fails; scanning resumes after the end of each match.  Python's built-in
`hash` is implementation-defined (randomized per process), so `parse_tool_calls`
is parameterized by an arbitrary hash function `List Char → Nat`; a concrete
model `pyHashModel` instantiates it where claims need evaluation.
`json.loads` is modelled on the fragment null / true / false / integer /
string / array / object (fractional and exponent number forms and \uXXXX
escapes are outside the modelled fragment and are treated as decode failures).
-/

/-- Python `str.isspace` on the ASCII whitespace characters used by `str.strip()`. -/
def pyIsSpace (c : Char) : Bool :=
  c = ' ' || c = '\t' || c = '\n' || c = '\r' || c = '\x0b' || c = '\x0c'

/-- Python `str.strip()`: drop leading and trailing whitespace. -/
def strip (s : List Char) : List Char :=
  ((s.dropWhile pyIsSpace).reverse.dropWhile pyIsSpace).reverse

/-- Split a string at the leftmost occurrence of `pat`: returns
`some (before, after)` with `s = before ++ pat ++ after` and no occurrence of
`pat` starting earlier, or `none` when `pat` does not occur.  This is the
primitive used to model Python's `in`, `str.replace` and the non-greedy
regex scans. -/
def splitFirstSub (pat : List Char) : List Char → Option (List Char × List Char)
  | [] => if pat.isPrefixOf [] then some ([], []) else none
  | c :: s =>
    if pat.isPrefixOf (c :: s) then some ([], (c :: s).drop pat.length)
    else (splitFirstSub pat s).map fun p => (c :: p.1, p.2)

/-- Python's substring test `pat in s`. -/
def containsSub (pat s : List Char) : Bool := (splitFirstSub pat s).isSome

/-- The literal wrapper opening tag `<tool_call>`. -/
def wrapOpen : List Char := "<tool_call>".toList

/-- The literal wrapper closing tag `</tool_call>`. -/
def wrapClose : List Char := "</tool_call>".toList

/-- The literal function block opener `<function=`. -/
def funcOpen : List Char := "<function=".toList

/-- The literal function block closer `</function>`. -/
def funcClose : List Char := "</function>".toList

/-- The literal parameter block opener `<parameter=`. -/
def paramOpen : List Char := "<parameter=".toList

/-- The literal parameter block closer `</parameter>`. -/
def paramClose : List Char := "</parameter>".toList

/-- The marker list of `has_partial_tool_call` (qwen.py line 92), in source order. -/
def markers : List (List Char) :=
  [wrapOpen, wrapClose, funcOpen, funcClose, paramOpen, paramClose]

/-- qwen.py lines 90-103, `has_partial_tool_call`: true when some marker occurs
in the content, or the content ends with a nonempty proper marker prefix
(`for i in range(1, len(marker)): content.endswith(marker[:i])`). -/
def has_partial_tool_call (content : List Char) : Bool :=
  markers.any (fun m => containsSub m content) ||
  markers.any (fun m =>
    (List.range' 1 (m.length - 1)).any (fun i => (m.take i).isSuffixOf content))

/-- Model of `re.search(r'<function=.*?</function>', content, re.DOTALL)`
(qwen.py line 112): some occurrence of `<function=` is followed, at or after
its end, by an occurrence of `</function>`; equivalently the first
`<function=` occurrence is. -/
def funcSpanSearch (content : List Char) : Bool :=
  match splitFirstSub funcOpen content with
  | none => false
  | some (_, t) => containsSub funcClose t

/-- qwen.py lines 105-112, `is_complete_tool_call`: with a wrapper opening tag
present, completeness is the presence of the closing tag; otherwise a full
standalone function span decides. -/
def is_complete_tool_call (content : List Char) : Bool :=
  if containsSub wrapOpen content then containsSub wrapClose content
  else funcSpanSearch content

/-- JSON values as produced by the modelled `json.loads`. -/
inductive Json where
  | null : Json
  | bool (b : Bool) : Json
  | num (n : Int) : Json
  | str (s : List Char) : Json
  | arr (elems : List Json) : Json
  | obj (members : List (List Char × Json)) : Json

/-- JSON insignificant whitespace. -/
def jsonSkipWs (s : List Char) : List Char :=
  s.dropWhile (fun c => c = ' ' || c = '\t' || c = '\n' || c = '\r')

/-- Decimal digits to a natural number. -/
def digitsToNat (ds : List Char) : Nat := ds.foldl (fun a c => a * 10 + (c.toNat - 48)) 0

/-- Python dict assignment `d[k] = v` on an insertion-ordered association
list: an existing key keeps its position and gets the new value, a new key is
appended. -/
def assocUpd {β : Type} (k : List Char) (v : β) :
    List (List Char × β) → List (List Char × β)
  | [] => [(k, v)]
  | (k', v') :: d => if k' = k then (k', v) :: d else (k', v') :: assocUpd k v d

/-- Python dict lookup on the association list. -/
def dictGet {β : Type} (k : List Char) : List (List Char × β) → Option β
  | [] => none
  | (k', v) :: d => if k' = k then some v else dictGet k d

/-- JSON string escape characters (the \uXXXX form is outside the modelled
fragment). -/
def jsonEsc (c : Char) : Option Char :=
  if c = '"' then some '"' else if c = '\\' then some '\\'
  else if c = '/' then some '/' else if c = 'b' then some '\x08'
  else if c = 'f' then some '\x0c' else if c = 'n' then some '\n'
  else if c = 'r' then some '\r' else if c = 't' then some '\t' else none

/-- JSON string body after the opening quote; fuel-structural. -/
def jsonStringTail : Nat → List Char → Option (List Char × List Char)
  | 0, _ => none
  | _ + 1, [] => none
  | f + 1, c :: r =>
    if c = '"' then some ([], r)
    else if c = '\\' then
      match r with
      | [] => none
      | e :: r' =>
        match jsonEsc e with
        | none => none
        | some d => (jsonStringTail f r').map fun p => (d :: p.1, p.2)
    else if c.toNat < 32 then none
    else (jsonStringTail f r).map fun p => (c :: p.1, p.2)

/-- JSON unsigned integer token: digits without a redundant leading zero, not
followed by a fraction or exponent (those forms are outside the modelled
fragment and fail). -/
def jsonUIntToken (s : List Char) : Option (Nat × List Char) :=
  let ds := s.takeWhile Char.isDigit
  let rest := s.dropWhile Char.isDigit
  if ds = [] then none
  else if 1 < ds.length && ds.head? = some '0' then none
  else
    match rest with
    | [] => some (digitsToNat ds, [])
    | c :: _ => if c = '.' || c = 'e' || c = 'E' then none else some (digitsToNat ds, rest)

/-- JSON integer token with optional minus sign. -/
def jsonIntToken (s : List Char) : Option (Int × List Char) :=
  match s with
  | '-' :: r => (jsonUIntToken r).map fun p => (-(p.1 : Int), p.2)
  | _ => (jsonUIntToken s).map fun p => ((p.1 : Int), p.2)

/-- Object members accumulate with Python dict semantics (duplicate keys:
last value wins, first position kept). -/
def jsonObjOfMembers (ms : List (List Char × Json)) : List (List Char × Json) :=
  ms.foldl (fun d kv => assocUpd kv.1 kv.2 d) []

mutual

/-- One JSON value; returns the value and the unconsumed rest. -/
def jsonValue : Nat → List Char → Option (Json × List Char)
  | 0, _ => none
  | f + 1, s =>
    match jsonSkipWs s with
    | 'n' :: 'u' :: 'l' :: 'l' :: r => some (.null, r)
    | 't' :: 'r' :: 'u' :: 'e' :: r => some (.bool true, r)
    | 'f' :: 'a' :: 'l' :: 's' :: 'e' :: r => some (.bool false, r)
    | '"' :: r => (jsonStringTail f r).map fun p => (.str p.1, p.2)
    | '[' :: r =>
      (match jsonSkipWs r with
       | ']' :: r' => some (.arr [], r')
       | _ => (jsonElems f r).map fun p => (.arr p.1, p.2))
    | '{' :: r =>
      (match jsonSkipWs r with
       | '}' :: r' => some (.obj [], r')
       | _ => (jsonMembers f r).map fun p => (.obj (jsonObjOfMembers p.1), p.2))
    | s' => (jsonIntToken s').map fun p => (.num p.1, p.2)

/-- Nonempty comma-separated element list up to the closing bracket. -/
def jsonElems : Nat → List Char → Option (List Json × List Char)
  | 0, _ => none
  | f + 1, s =>
    match jsonValue f s with
    | none => none
    | some (v, r) =>
      match jsonSkipWs r with
      | ',' :: r' => (jsonElems f r').map fun p => (v :: p.1, p.2)
      | ']' :: r' => some ([v], r')
      | _ => none

/-- Nonempty comma-separated member list up to the closing brace. -/
def jsonMembers : Nat → List Char → Option (List (List Char × Json) × List Char)
  | 0, _ => none
  | f + 1, s =>
    match jsonSkipWs s with
    | '"' :: r =>
      (match jsonStringTail f r with
       | none => none
       | some (k, r1) =>
         match jsonSkipWs r1 with
         | ':' :: r2 =>
           (match jsonValue f r2 with
            | none => none
            | some (v, r3) =>
              match jsonSkipWs r3 with
              | ',' :: r4 => (jsonMembers f r4).map fun p => ((k, v) :: p.1, p.2)
              | '}' :: r5 => some ([(k, v)], r5)
              | _ => none)
         | _ => none)
    | _ => none

end

/-- Model of `json.loads` on the fragment described in the header: the whole
input, up to trailing whitespace, must be consumed. -/
def jsonLoads (s : List Char) : Option Json :=
  match jsonValue (2 * s.length + 2) s with
  | none => none
  | some (v, r) => if jsonSkipWs r = [] then some v else none

/-- A stored argument value: either the raw trimmed string or a decoded JSON
value (qwen.py lines 63-73). -/
inductive PyVal where
  | str (s : List Char) : PyVal
  | json (j : Json) : PyVal

/-- qwen.py lines 63-73: JSON-decode the value exactly when it starts with
`[` or `{` and `json.loads` succeeds; any decode failure falls back to the
raw string, so no error escapes. -/
def pyDecodeValue (value : List Char) : PyVal :=
  if value.head? = some '[' || value.head? = some '{' then
    match jsonLoads value with
    | some parsed => .json parsed
    | none => .str value
  else .str value

/-- Decimal digits of a positive number, most significant first; fuel-structural. -/
def natToDecCore : Nat → Nat → List Char
  | 0, _ => []
  | f + 1, n => if n = 0 then [] else natToDecCore f (n / 10) ++ [Nat.digitChar (n % 10)]

/-- Python `str(n)` for a natural number. -/
def natToDec (n : Nat) : List Char := if n = 0 then ['0'] else natToDecCore n n

/-- Core of the model of
`re.findall(r'OPEN(.*?)>(.*?)CLOSE', s, re.DOTALL)`: find the leftmost
occurrence of the opening literal, the first `>` after it (non-greedy first
group), the first occurrence of the closing literal after that (non-greedy
second group), emit the two groups and continue after the match; when one of
the three searches fails there is no match anywhere (see header).  The fuel
strictly exceeds the number of matches. -/
def reFindallBlocksCore (openTag closeTag : List Char) : Nat → List Char → List (List Char × List Char)
  | 0, _ => []
  | f + 1, s =>
    match splitFirstSub openTag s with
    | none => []
    | some (_, t) =>
      match splitFirstSub ['>'] t with
      | none => []
      | some (name, t2) =>
        match splitFirstSub closeTag t2 with
        | none => []
        | some (body, rest) => (name, body) :: reFindallBlocksCore openTag closeTag f rest

/-- Model of the two-group block findall used at qwen.py lines 43-44 and 54-55. -/
def reFindallBlocks (openTag closeTag s : List Char) : List (List Char × List Char) :=
  reFindallBlocksCore openTag closeTag s.length s

/-- qwen.py lines 54-73: the parameter findall of one function block folded
into the `arguments` dict with strip and JSON-decoding of values. -/
def parseParams (paramsBlock : List Char) : List (List Char × PyVal) :=
  (reFindallBlocks paramOpen paramClose paramsBlock).foldl
    (fun arguments pm => assocUpd (strip pm.1) (pyDecodeValue (strip pm.2)) arguments) []

/-- One normalized tool call (qwen.py lines 77-84).  The source serializes
`arguments` with `json.dumps` into the transport string; the embedding keeps
the insertion-ordered mapping that is serialized. -/
structure ToolCall where
  id : List Char
  type : List Char
  name : List Char
  arguments : List (List Char × PyVal)

/-- The f-string `f"{function_name}_{i}_{len(tool_calls)}"` of qwen.py line 78. -/
def toolCallKey (function_name : List Char) (i len_tool_calls : Nat) : List Char :=
  function_name ++ '_' :: (natToDec i ++ '_' :: natToDec len_tool_calls)

/-- qwen.py lines 35-88, `parse_tool_calls`, parameterized by the
implementation-defined string hash. -/
def parse_tool_calls (hash : List Char → Nat) (content : List Char) : List ToolCall :=
  (reFindallBlocks funcOpen funcClose content).enum.foldl
    (fun tool_calls im =>
      let function_name := strip im.2.1
      tool_calls ++
        [{ id := natToDec (hash (toolCallKey function_name im.1 tool_calls.length) % 1000000000),
           type := "function".toList,
           name := function_name,
           arguments := parseParams im.2.2 }])
    []

/-- A concrete stand-in for Python's randomized string hash (a 32-bit rolling
hash); statements that depend on specific hash values use it, statements
about all hashes quantify over the `hash` argument of `parse_tool_calls`. -/
def pyHashModel (s : List Char) : Nat :=
  s.foldl (fun a c => (a * 31 + c.toNat) % 4294967296) 7

/-- The position-tagged key strings hashed for the ids of one
`parse_tool_calls` run (the loop keeps `len(tool_calls) = i`). -/
def parseKeys (content : List Char) : List (List Char) :=
  (reFindallBlocks funcOpen funcClose content).enum.map
    (fun im => toolCallKey (strip im.2.1) im.1 im.1)

/-- Core of `re.sub(r'OPEN.*?CLOSE', '', s, flags=re.DOTALL)`: remove each
leftmost span from an opening literal to the first closing literal after it,
continuing after the span; with no full span the text is unchanged. -/
def reSubRemoveCore (openTag closeTag : List Char) : Nat → List Char → List Char
  | 0, s => s
  | f + 1, s =>
    match splitFirstSub openTag s with
    | none => s
    | some (before, t) =>
      match splitFirstSub closeTag t with
      | none => s
      | some (_, rest) => before ++ reSubRemoveCore openTag closeTag f rest

/-- Model of the span-removing `re.sub` of qwen.py lines 117-119. -/
def reSubRemove (openTag closeTag s : List Char) : List Char :=
  reSubRemoveCore openTag closeTag s.length s

/-- Core of Python `str.replace(pat, '')`: remove every occurrence, scanning
left to right without overlap. -/
def replaceAllCore (pat : List Char) : Nat → List Char → List Char
  | 0, s => s
  | f + 1, s =>
    match splitFirstSub pat s with
    | none => s
    | some (before, after) => before ++ replaceAllCore pat f after

/-- Python `s.replace(pat, '')`. -/
def replaceAll (pat s : List Char) : List Char :=
  replaceAllCore pat s.length s

/-- The bulk-removal first half of `_clean_content` (qwen.py lines 117-119):
wrapped spans, then standalone function spans. -/
def bulkRemoved (content : List Char) : List Char :=
  reSubRemove funcOpen funcClose (reSubRemove wrapOpen wrapClose content)

/-- qwen.py lines 122-123: the lone opening-tag pass, testing the current
(already rewritten) text. -/
def loneOpenPass (c : List Char) : List Char :=
  if containsSub wrapOpen c && !containsSub wrapClose c then replaceAll wrapOpen c else c

/-- qwen.py lines 124-125: the lone closing-tag pass, testing the text left by
the previous pass. -/
def loneClosePass (c : List Char) : List Char :=
  if containsSub wrapClose c && !containsSub wrapOpen c then replaceAll wrapClose c else c

/-- qwen.py lines 114-127, `_clean_content`: bulk removal, the two lone-tag
conditionals in sequence, final strip. -/
def _clean_content (content : List Char) : List Char :=
  strip (loneClosePass (loneOpenPass (bulkRemoved content)))

/-- The text of a sequence of markup blocks per the grammar of spec section
4.1: `OPEN ++ name ++ ">" ++ body ++ CLOSE` for each block in order. -/
def mkBlocks (openTag closeTag : List Char) : List (List Char × List Char) → List Char
  | [] => []
  | b :: bs => openTag ++ b.1 ++ '>' :: (b.2 ++ closeTag ++ mkBlocks openTag closeTag bs)

/-- Written from the spec's words (spec section 3, invariants): argument keys
in order of first occurrence. -/
def specFirstSeenKeys (ks : List (List Char)) : List (List Char) :=
  ks.foldl (fun acc k => if k ∈ acc then acc else acc ++ [k]) []

/-- A pattern with no nonempty proper border: no proper prefix equals the
suffix of the same length.  All closing tags of the grammar satisfy it, which
rules out occurrences straddling a block boundary. -/
def NoBorder (pat : List Char) : Prop :=
  ∀ m : Fin pat.length, 0 < (m : Nat) → pat.take m ≠ pat.drop (pat.length - m)

/-! ### Lemmas about the leftmost-substring scanner -/

theorem splitFirstSub_nil (pat : List Char) :
    splitFirstSub pat [] = if pat = [] then some ([], []) else none := by
  cases pat with
  | nil => simp [splitFirstSub, List.isPrefixOf]
  | cons c p => simp [splitFirstSub, List.isPrefixOf]

theorem splitFirstSub_cons_pos {pat : List Char} {c : Char} {s : List Char}
    (hp : pat <+: (c :: s)) :
    splitFirstSub pat (c :: s) = some ([], (c :: s).drop pat.length) := by
  unfold splitFirstSub
  rw [if_pos (List.isPrefixOf_iff_prefix.mpr hp)]

theorem splitFirstSub_cons_neg {pat : List Char} {c : Char} {s : List Char}
    (hp : ¬ pat <+: (c :: s)) :
    splitFirstSub pat (c :: s) = (splitFirstSub pat s).map fun p => (c :: p.1, p.2) := by
  simp only [splitFirstSub]
  rw [if_neg (fun hb => hp (List.isPrefixOf_iff_prefix.mp hb))]

theorem splitFirstSub_some {pat s b a : List Char} (h : splitFirstSub pat s = some (b, a)) :
    s = b ++ pat ++ a := by
  induction s generalizing b a with
  | nil =>
    rw [splitFirstSub_nil] at h
    by_cases hp : pat = ([] : List Char)
    · rw [if_pos hp] at h
      injection h with h
      injection h with h1 h2
      subst h1; subst h2
      simp [hp]
    · rw [if_neg hp] at h
      exact absurd h (by simp)
  | cons c s ih =>
    by_cases hp : pat <+: (c :: s)
    · rw [splitFirstSub_cons_pos hp] at h
      injection h with h
      injection h with h1 h2
      subst h1; subst h2
      obtain ⟨t, ht⟩ := hp
      simp [← ht, List.drop_left]
    · rw [splitFirstSub_cons_neg hp] at h
      cases hs : splitFirstSub pat s with
      | none => rw [hs] at h; exact absurd h (by simp)
      | some p =>
        obtain ⟨p1, p2⟩ := p
        rw [hs] at h
        simp only [Option.map_some'] at h
        injection h with h
        injection h with h1 h2
        subst h1; subst h2
        have hsv := ih hs
        simp [hsv]

theorem splitFirstSub_isSome {pat s : List Char} (h : ∃ b a, s = b ++ pat ++ a) :
    (splitFirstSub pat s).isSome := by
  obtain ⟨b, a, rfl⟩ := h
  induction b with
  | nil =>
    have hp : pat <+: ([] ++ pat ++ a) := ⟨a, by simp⟩
    cases hpa : [] ++ pat ++ a with
    | nil =>
      simp only [List.nil_append] at hpa
      obtain ⟨rfl, rfl⟩ := List.append_eq_nil.mp hpa
      simp [splitFirstSub_nil]
    | cons c t =>
      rw [hpa] at hp
      rw [splitFirstSub_cons_pos hp]
      simp
  | cons c b ih =>
    by_cases hp : pat <+: (c :: (b ++ pat ++ a))
    · rw [List.cons_append, List.cons_append, splitFirstSub_cons_pos (by simpa using hp)]
      simp
    · rw [List.cons_append, List.cons_append,
        splitFirstSub_cons_neg (by simpa using hp)]
      simpa using ih

theorem containsSub_iff {pat s : List Char} :
    containsSub pat s = true ↔ ∃ b a, s = b ++ pat ++ a := by
  constructor
  · intro h
    unfold containsSub at h
    cases hs : splitFirstSub pat s with
    | none => simp [hs] at h
    | some p => exact ⟨p.1, p.2, splitFirstSub_some (by simpa using hs)⟩
  · intro h
    unfold containsSub
    simpa using splitFirstSub_isSome h

theorem containsSub_eq_false {pat s : List Char} :
    containsSub pat s = false ↔ ¬ ∃ b a, s = b ++ pat ++ a := by
  rw [← containsSub_iff]
  cases containsSub pat s <;> simp

theorem splitFirstSub_eq_none {pat s : List Char} (h : containsSub pat s = false) :
    splitFirstSub pat s = none := by
  unfold containsSub at h
  cases hs : splitFirstSub pat s with
  | none => rfl
  | some p => rw [hs] at h; simp at h

/-- A pattern that is a prefix of `x ++ pat ++ y` either occurs inside `x` or
forces a border of itself, so with neither possibility `x` is empty. -/
theorem pat_overlap_nil {pat x y : List Char} (hnb : NoBorder pat)
    (hx : ¬ ∃ b a, x = b ++ pat ++ a) (h : pat <+: x ++ (pat ++ y)) : x = [] := by
  obtain ⟨t, ht⟩ := h
  by_cases hlen : pat.length ≤ x.length
  · exfalso
    apply hx
    have htake : (x ++ (pat ++ y)).take pat.length = x.take pat.length := by
      rw [List.take_append_eq_append_take, Nat.sub_eq_zero_of_le hlen]
      simp
    have hpx : pat = x.take pat.length := by
      have h1 : (pat ++ t).take pat.length = pat := by simp
      rw [ht] at h1
      rw [htake] at h1
      exact h1.symm
    have hsplit : x = x.take pat.length ++ x.drop pat.length := (List.take_append_drop _ _).symm
    rw [← hpx] at hsplit
    exact ⟨[], x.drop pat.length, by simpa using hsplit⟩
  · push_neg at hlen
    by_cases hx0 : x = []
    · exact hx0
    exfalso
    have hxpos : 0 < x.length := List.length_pos.mpr hx0
    have htake : (x ++ (pat ++ y)).take pat.length = x ++ pat.take (pat.length - x.length) := by
      rw [List.take_append_eq_append_take]
      rw [List.take_of_length_le (le_of_lt hlen)]
      rw [List.take_append_eq_append_take, Nat.sub_eq_zero_of_le (by omega : pat.length - x.length ≤ pat.length)]
      simp
    have hpx : pat = x ++ pat.take (pat.length - x.length) := by
      have h1 : (pat ++ t).take pat.length = pat := by simp
      rw [ht] at h1
      rw [htake] at h1
      exact h1.symm
    have hdrop : pat.drop x.length = pat.take (pat.length - x.length) := by
      conv_lhs => rw [hpx]
      simp
    have hm : pat.length - x.length < pat.length := by omega
    have hmpos : 0 < pat.length - x.length := by omega
    apply hnb ⟨pat.length - x.length, hm⟩ hmpos
    show pat.take (pat.length - x.length) = pat.drop (pat.length - (pat.length - x.length))
    have hxx : pat.length - (pat.length - x.length) = x.length := by omega
    rw [hxx]
    exact hdrop.symm

/-- The scanner on a text that starts with the pattern itself. -/
theorem splitFirstSub_self {pat suf : List Char} (hpat : pat ≠ []) :
    splitFirstSub pat (pat ++ suf) = some ([], suf) := by
  cases pat with
  | nil => exact absurd rfl hpat
  | cons c p =>
    rw [List.cons_append, splitFirstSub_cons_pos ⟨suf, by simp⟩]
    rw [← List.cons_append, List.drop_left]

/-- With no border and no occurrence inside `pre`, the leftmost occurrence of
`pat` in `pre ++ pat ++ suf` is the explicit one. -/
theorem splitFirstSub_block {pat pre suf : List Char} (hnb : NoBorder pat) (hpat : pat ≠ [])
    (hpre : ¬ ∃ b a, pre = b ++ pat ++ a) :
    splitFirstSub pat (pre ++ pat ++ suf) = some (pre, suf) := by
  induction pre with
  | nil => simpa using splitFirstSub_self hpat
  | cons c pre ih =>
    have hnotp : ¬ pat <+: (c :: (pre ++ pat ++ suf)) := by
      intro hp
      have : (c :: pre) = [] := by
        apply pat_overlap_nil hnb hpre
        simpa using hp
      simp at this
    rw [List.cons_append, List.cons_append, splitFirstSub_cons_neg (by simpa using hnotp)]
    have hpre' : ¬ ∃ b a, pre = b ++ pat ++ a := by
      rintro ⟨b, a, rfl⟩
      exact hpre ⟨c :: b, a, by simp⟩
    rw [ih hpre']
    rfl

/-- Membership transfer: a single-character pattern occurs iff the character does. -/
theorem not_sub_singleton {c : Char} {l : List Char} (h : c ∉ l) :
    ¬ ∃ b a, l = b ++ [c] ++ a := by
  rintro ⟨b, a, rfl⟩
  simp at h

/-- `NoBorder` holds for `['>']`. -/
theorem noBorder_gt : NoBorder ['>'] := by
  intro m hm
  have h1 : (m : Nat) < 1 := by
    have h2 := m.isLt
    simp only [List.length_singleton] at h2
    exact h2
  omega

/-! ### The block findall on well-formed block sequences -/

theorem reFindallBlocksCore_none {openTag closeTag s : List Char}
    (h : containsSub openTag s = false) :
    ∀ fuel, reFindallBlocksCore openTag closeTag fuel s = [] := by
  intro fuel
  cases fuel with
  | zero => rfl
  | succ f => simp [reFindallBlocksCore, splitFirstSub_eq_none h]

theorem mkBlocks_length_ge {openTag closeTag : List Char} {b : List Char × List Char}
    {bs : List (List Char × List Char)} :
    (mkBlocks openTag closeTag (b :: bs)).length =
      openTag.length + b.1.length + 1 + b.2.length + closeTag.length +
        (mkBlocks openTag closeTag bs).length := by
  simp [mkBlocks]
  omega

theorem reFindallBlocksCore_blocks {openTag closeTag : List Char}
    (ho : openTag ≠ []) (hc : closeTag ≠ []) (hnb : NoBorder closeTag)
    (blocks : List (List Char × List Char))
    (hb : ∀ p ∈ blocks, ('>' ∉ p.1) ∧ ¬ ∃ b a, p.2 = b ++ closeTag ++ a) :
    ∀ fuel, (mkBlocks openTag closeTag blocks).length ≤ fuel →
      reFindallBlocksCore openTag closeTag fuel (mkBlocks openTag closeTag blocks) = blocks := by
  induction blocks with
  | nil =>
    intro fuel _
    apply reFindallBlocksCore_none
    rw [containsSub_eq_false]
    rintro ⟨b, a, hsplit⟩
    simp only [mkBlocks] at hsplit
    have := congrArg List.length hsplit
    simp at this
    have : openTag.length = 0 := by omega
    exact ho (List.eq_nil_of_length_eq_zero this)
  | cons b bs ih =>
    intro fuel hfuel
    obtain ⟨hgt, hnc⟩ := hb b (by simp)
    have hrest := fun p hp => hb p (List.mem_cons_of_mem _ hp)
    cases fuel with
    | zero =>
      exfalso
      rw [mkBlocks_length_ge] at hfuel
      have : 0 < openTag.length := List.length_pos.mpr ho
      omega
    | succ f =>
      show reFindallBlocksCore openTag closeTag (f + 1)
        (mkBlocks openTag closeTag (b :: bs)) = b :: bs
      have htext : mkBlocks openTag closeTag (b :: bs) =
          openTag ++ (b.1 ++ ['>'] ++ (b.2 ++ closeTag ++ mkBlocks openTag closeTag bs)) := by
        simp [mkBlocks]
      unfold reFindallBlocksCore
      rw [htext, splitFirstSub_self ho]
      dsimp only
      have hs2 : splitFirstSub ['>']
          (b.1 ++ ['>'] ++ (b.2 ++ closeTag ++ mkBlocks openTag closeTag bs)) =
          some (b.1, b.2 ++ closeTag ++ mkBlocks openTag closeTag bs) :=
        splitFirstSub_block noBorder_gt (by simp) (not_sub_singleton hgt)
      rw [hs2]
      dsimp only
      have hs3 : splitFirstSub closeTag (b.2 ++ closeTag ++ mkBlocks openTag closeTag bs) =
          some (b.2, mkBlocks openTag closeTag bs) :=
        splitFirstSub_block hnb hc hnc
      rw [hs3]
      dsimp only
      have hlen : (mkBlocks openTag closeTag bs).length ≤ f := by
        rw [mkBlocks_length_ge] at hfuel
        have : 0 < openTag.length := List.length_pos.mpr ho
        omega
      rw [ih hrest f hlen]

theorem reFindallBlocks_blocks {openTag closeTag : List Char}
    (ho : openTag ≠ []) (hc : closeTag ≠ []) (hnb : NoBorder closeTag)
    (blocks : List (List Char × List Char))
    (hb : ∀ p ∈ blocks, ('>' ∉ p.1) ∧ ¬ ∃ b a, p.2 = b ++ closeTag ++ a) :
    reFindallBlocks openTag closeTag (mkBlocks openTag closeTag blocks) = blocks :=
  reFindallBlocksCore_blocks ho hc hnb blocks hb _ le_rfl

/-! ### parse_tool_calls as a map over the enumerated matches -/

/-- The tool call built for the match at index `i` (the loop invariant
`len(tool_calls) = i` is proved in `parse_tool_calls_eq_map`). -/
def mkToolCallAt (hash : List Char → Nat) (i : Nat) (m : List Char × List Char) : ToolCall :=
  { id := natToDec (hash (toolCallKey (strip m.1) i i) % 1000000000),
    type := "function".toList,
    name := strip m.1,
    arguments := parseParams m.2 }

theorem parse_foldl_invariant (hash : List Char → Nat) (l : List (List Char × List Char)) :
    ∀ (n : Nat) (acc : List ToolCall), acc.length = n →
      ((l.enumFrom n).foldl
        (fun tool_calls im =>
          let function_name := strip im.2.1
          tool_calls ++
            [{ id := natToDec (hash (toolCallKey function_name im.1 tool_calls.length) % 1000000000),
               type := "function".toList,
               name := function_name,
               arguments := parseParams im.2.2 }])
        acc) =
      acc ++ (l.enumFrom n).map (fun im => mkToolCallAt hash im.1 im.2) := by
  induction l with
  | nil => intro n acc _; simp
  | cons x l ih =>
    intro n acc hacc
    simp only [List.enumFrom, List.foldl_cons, List.map_cons]
    rw [ih (n + 1) _ (by simp [hacc])]
    simp [mkToolCallAt, hacc]

theorem parse_tool_calls_eq_map (hash : List Char → Nat) (content : List Char) :
    parse_tool_calls hash content =
      (reFindallBlocks funcOpen funcClose content).enum.map
        (fun im => mkToolCallAt hash im.1 im.2) := by
  unfold parse_tool_calls
  rw [show (reFindallBlocks funcOpen funcClose content).enum =
    (reFindallBlocks funcOpen funcClose content).enumFrom 0 from rfl]
  exact (parse_foldl_invariant hash _ 0 [] rfl).trans (by simp)

/-! ### Decimal rendering is injective -/

theorem natToDecCore_zero : ∀ f, natToDecCore f 0 = [] := by
  intro f
  cases f <;> simp [natToDecCore]

/-- The decimal value of a digit string, used to invert `natToDec`. -/
def decVal (l : List Char) : Nat := l.foldl (fun a c => a * 10 + (c.toNat - 48)) 0

theorem decVal_append_digit (l : List Char) (c : Char) :
    decVal (l ++ [c]) = decVal l * 10 + (c.toNat - 48) := by
  simp [decVal, List.foldl_append]

theorem digitChar_val {d : Nat} (hd : d < 10) : (Nat.digitChar d).toNat - 48 = d := by
  interval_cases d <;> rfl

theorem decVal_natToDecCore : ∀ (f n : Nat), 0 < n → n ≤ f →
    decVal (natToDecCore f n) = n := by
  intro f
  induction f with
  | zero => intro n h1 h2; omega
  | succ f ih =>
    intro n h1 h2
    rw [natToDecCore, if_neg (by omega)]
    rw [decVal_append_digit, digitChar_val (Nat.mod_lt _ (by omega))]
    by_cases h10 : n / 10 = 0
    · rw [h10, natToDecCore_zero]
      have : n % 10 = n := Nat.mod_eq_of_lt (by omega)
      simp [decVal, this]
    · rw [ih (n / 10) (by omega) (by
        have := Nat.div_lt_self h1 (by omega : 1 < 10)
        omega)]
      omega

theorem decVal_natToDec (n : Nat) : decVal (natToDec n) = n := by
  unfold natToDec
  by_cases h : n = 0
  · simp [h, decVal]
  · rw [if_neg h]
    exact decVal_natToDecCore n n (by omega) le_rfl

theorem natToDec_inj : Function.Injective natToDec := by
  intro a b h
  have := congrArg decVal h
  rwa [decVal_natToDec, decVal_natToDec] at this

/-! ### Association-list dictionary lemmas -/

theorem assocUpd_keys {β : Type} (k : List Char) (v : β) (d : List (List Char × β)) :
    (assocUpd k v d).map Prod.fst =
      if k ∈ d.map Prod.fst then d.map Prod.fst else d.map Prod.fst ++ [k] := by
  induction d with
  | nil => simp [assocUpd]
  | cons p d ih =>
    obtain ⟨k', v'⟩ := p
    by_cases hk : k' = k
    · subst hk
      simp only [assocUpd]
      simp only [if_true]
      simp only [List.map_cons]
      rw [if_pos (List.mem_cons_self k' (List.map Prod.fst d))]
    · simp only [assocUpd, if_neg hk, List.map_cons, ih]
      by_cases hmem : k ∈ d.map Prod.fst
      · simp [hmem, Ne.symm hk]
      · simp [hmem, Ne.symm hk]

theorem foldl_assocUpd_keys {β : Type} (l : List (List Char × β)) :
    ∀ d : List (List Char × β),
      ((l.foldl (fun d p => assocUpd p.1 p.2 d) d).map Prod.fst) =
        (l.map Prod.fst).foldl (fun acc k => if k ∈ acc then acc else acc ++ [k])
          (d.map Prod.fst) := by
  induction l with
  | nil => intro d; simp
  | cons p l ih =>
    intro d
    simp only [List.foldl_cons, List.map_cons]
    rw [ih (assocUpd p.1 p.2 d), assocUpd_keys]

theorem dictGet_assocUpd {β : Type} (k k' : List Char) (v : β) (d : List (List Char × β)) :
    dictGet k (assocUpd k' v d) = if k' = k then some v else dictGet k d := by
  induction d with
  | nil =>
    by_cases hk : k' = k <;> simp [assocUpd, dictGet, hk]
  | cons p d ih =>
    obtain ⟨k'', v''⟩ := p
    by_cases h1 : k'' = k'
    · subst h1
      by_cases h2 : k'' = k
      · subst h2
        simp [assocUpd, dictGet]
      · simp [assocUpd, dictGet, h2]
    · by_cases h2 : k'' = k
      · subst h2
        have hk : ¬ (k' = k'') := fun hcontra => h1 hcontra.symm
        simp [assocUpd, h1, dictGet, hk]
      · simp [assocUpd, h1, dictGet, h2, ih]

theorem dictGet_foldl_assocUpd {β : Type} (l : List (List Char × β)) (k : List Char) :
    ∀ d : List (List Char × β),
      dictGet k (l.foldl (fun d p => assocUpd p.1 p.2 d) d) =
        (match l.reverse.find? (fun p => decide (p.1 = k)) with
         | some p => some p.2
         | none => dictGet k d) := by
  induction l with
  | nil => intro d; simp
  | cons p l ih =>
    intro d
    simp only [List.foldl_cons, List.reverse_cons]
    rw [ih]
    rw [List.find?_append]
    cases hfind : l.reverse.find? (fun p => decide (p.1 = k)) with
    | some q => simp [hfind, Option.orElse]
    | none =>
      simp only [hfind, Option.none_orElse]
      by_cases hk : p.1 = k
      · simp [List.find?, hk, dictGet_assocUpd]
      · simp [List.find?, hk, dictGet_assocUpd]

/-! ### First-seen key order -/

theorem specFSK_foldl_mem (ks : List (List Char)) (k : List Char) :
    ∀ acc, (k ∈ ks.foldl (fun acc k => if k ∈ acc then acc else acc ++ [k]) acc ↔
      k ∈ acc ∨ k ∈ ks) := by
  induction ks with
  | nil => intro acc; simp
  | cons k' ks ih =>
    intro acc
    simp only [List.foldl_cons]
    rw [ih]
    by_cases h : k' ∈ acc
    · rw [if_pos h]
      constructor
      · rintro (h1 | h1)
        · exact Or.inl h1
        · exact Or.inr (List.mem_cons_of_mem _ h1)
      · rintro (h1 | h1)
        · exact Or.inl h1
        · rcases List.mem_cons.mp h1 with h2 | h2
          · exact Or.inl (h2 ▸ h)
          · exact Or.inr h2
    · rw [if_neg h]
      simp only [List.mem_append, List.mem_singleton, List.mem_cons]
      tauto

theorem specFSK_foldl_nodup (ks : List (List Char)) :
    ∀ acc, acc.Nodup →
      (ks.foldl (fun acc k => if k ∈ acc then acc else acc ++ [k]) acc).Nodup := by
  induction ks with
  | nil => intro acc h; simpa using h
  | cons k ks ih =>
    intro acc hacc
    simp only [List.foldl_cons]
    by_cases h : k ∈ acc
    · rw [if_pos h]; exact ih acc hacc
    · rw [if_neg h]
      refine ih _ ?_
      rw [List.nodup_append]
      exact ⟨hacc, List.nodup_singleton k, by simpa using fun hk => h hk⟩

theorem specFirstSeenKeys_toFinset (ks : List (List Char)) :
    (specFirstSeenKeys ks).toFinset = ks.toFinset := by
  apply Finset.ext
  intro k
  simp only [List.mem_toFinset]
  unfold specFirstSeenKeys
  rw [specFSK_foldl_mem]
  simp

theorem specFirstSeenKeys_length (ks : List (List Char)) :
    (specFirstSeenKeys ks).length = ks.dedup.length := by
  have hnd : (specFirstSeenKeys ks).Nodup := specFSK_foldl_nodup ks [] List.nodup_nil
  rw [← List.toFinset_card_of_nodup hnd, specFirstSeenKeys_toFinset, List.card_toFinset]

/-! ### Lemmas about strip -/

theorem dropWhile_head_not {p : Char → Bool} {l : List Char} {c : Char} {t : List Char}
    (h : l.dropWhile p = c :: t) : p c = false := by
  induction l with
  | nil => simp [List.dropWhile] at h
  | cons x l ih =>
    rw [List.dropWhile_cons] at h
    by_cases hx : p x
    · rw [if_pos hx] at h
      exact ih h
    · rw [if_neg hx] at h
      injection h with h1 h2
      subst h1
      simpa using hx

theorem dropWhile_of_head_not {p : Char → Bool} {l : List Char}
    (h : ∀ c t, l = c :: t → p c = false) : l.dropWhile p = l := by
  cases l with
  | nil => rfl
  | cons c t =>
    rw [List.dropWhile_cons, if_neg]
    simp [h c t rfl]

theorem exists_dropWhile_suffix (p : Char → Bool) (l : List Char) :
    ∃ b, l = b ++ l.dropWhile p := by
  induction l with
  | nil => exact ⟨[], rfl⟩
  | cons c l ih =>
    by_cases hc : p c
    · obtain ⟨b, hb⟩ := ih
      rw [List.dropWhile_cons, if_pos hc]
      exact ⟨c :: b, by simpa using hb⟩
    · rw [List.dropWhile_cons, if_neg hc]
      exact ⟨[], rfl⟩

theorem strip_strip (x : List Char) : strip (strip x) = strip x := by
  unfold strip
  set t1 := x.dropWhile pyIsSpace with ht1
  set u := t1.reverse.dropWhile pyIsSpace with hu
  have hu_head : ∀ c t, u = c :: t → pyIsSpace c = false := fun c t h =>
    dropWhile_head_not (hu ▸ h)
  have h1 : u.reverse.dropWhile pyIsSpace = u.reverse := by
    apply dropWhile_of_head_not
    intro c t h
    obtain ⟨b, hb⟩ := exists_dropWhile_suffix pyIsSpace t1.reverse
    rw [← hu] at hb
    have hrev : t1 = u.reverse ++ b.reverse := by
      have := congrArg List.reverse hb
      simpa using this
    rw [h] at hrev
    have ht1_head : ∀ c' t', t1 = c' :: t' → pyIsSpace c' = false := fun c' t' h' =>
      dropWhile_head_not (ht1 ▸ h')
    exact ht1_head c _ (by simpa using hrev)
  rw [h1]
  have h2 : u.reverse.reverse.dropWhile pyIsSpace = u := by
    rw [List.reverse_reverse]
    apply dropWhile_of_head_not
    exact hu_head
  rw [h2]

theorem containsSub_of_strip {pat x : List Char} (h : containsSub pat (strip x) = true) :
    containsSub pat x = true := by
  rw [containsSub_iff] at h ⊢
  obtain ⟨b, a, hba⟩ := h
  obtain ⟨b1, hb1⟩ := exists_dropWhile_suffix pyIsSpace x
  obtain ⟨b2, hb2⟩ := exists_dropWhile_suffix pyIsSpace (x.dropWhile pyIsSpace).reverse
  have hmid : x.dropWhile pyIsSpace = strip x ++ b2.reverse := by
    unfold strip
    have := congrArg List.reverse hb2
    simpa using this
  refine ⟨b1 ++ b, a ++ b2.reverse, ?_⟩
  rw [hb1, hmid, hba]
  simp

theorem containsSub_dropWhile {p : Char → Bool} {pat l : List Char}
    (hpat : ∀ c ∈ pat, p c = false) (hne : pat ≠ [])
    (h : containsSub pat l = true) : containsSub pat (l.dropWhile p) = true := by
  induction l with
  | nil =>
    rw [containsSub_iff] at h
    obtain ⟨b, a, hba⟩ := h
    exfalso
    have := congrArg List.length hba
    simp at this
    exact hne (List.eq_nil_of_length_eq_zero (by omega))
  | cons c l ih =>
    by_cases hc : p c
    · rw [List.dropWhile_cons, if_pos hc]
      apply ih
      rw [containsSub_iff] at h ⊢
      obtain ⟨b, a, hba⟩ := h
      cases b with
      | nil =>
        exfalso
        simp only [List.nil_append] at hba
        cases pat with
        | nil => exact hne rfl
        | cons pc pt =>
          have hpcc : c = pc := by
            have := congrArg (fun l => l.head?) hba
            simpa using this
          have hpc := hpat pc (by simp)
          rw [← hpcc, hc] at hpc
          simp at hpc
      | cons b0 b =>
        refine ⟨b, a, ?_⟩
        have := congrArg List.tail hba
        simpa using this
    · rwa [List.dropWhile_cons, if_neg hc]

theorem containsSub_reverse {pat l : List Char} (h : containsSub pat l = true) :
    containsSub pat.reverse l.reverse = true := by
  rw [containsSub_iff] at h ⊢
  obtain ⟨b, a, rfl⟩ := h
  exact ⟨a.reverse, b.reverse, by simp⟩

theorem containsSub_strip {pat x : List Char}
    (hpat : ∀ c ∈ pat, pyIsSpace c = false) (hne : pat ≠ [])
    (h : containsSub pat x = true) : containsSub pat (strip x) = true := by
  unfold strip
  have h1 := containsSub_dropWhile hpat hne h
  have h2 := containsSub_reverse h1
  have h3 := containsSub_dropWhile (fun c hc => hpat c (by simpa using hc))
    (by simpa using hne) h2
  have h4 := containsSub_reverse h3
  simpa using h4

/-! ### No-op lemmas for absent markers -/

theorem reSubRemoveCore_no {openTag closeTag s : List Char}
    (h : containsSub openTag s = false) :
    ∀ fuel, reSubRemoveCore openTag closeTag fuel s = s := by
  intro fuel
  cases fuel with
  | zero => rfl
  | succ f => simp [reSubRemoveCore, splitFirstSub_eq_none h]

theorem reSubRemove_no {openTag closeTag s : List Char}
    (h : containsSub openTag s = false) : reSubRemove openTag closeTag s = s :=
  reSubRemoveCore_no h _

theorem reFindallBlocks_no {openTag closeTag s : List Char}
    (h : containsSub openTag s = false) : reFindallBlocks openTag closeTag s = [] :=
  reFindallBlocksCore_none h _

theorem parse_tool_calls_no {content : List Char}
    (h : containsSub funcOpen content = false) :
    ∀ hash, parse_tool_calls hash content = [] := by
  intro hash
  rw [parse_tool_calls_eq_map, reFindallBlocks_no h]
  rfl

theorem loneOpenPass_id {c : List Char} (h : ¬ (containsSub wrapOpen c = true ∧ containsSub wrapClose c = false)) :
    loneOpenPass c = c := by
  unfold loneOpenPass
  rw [if_neg]
  intro hb
  rcases Bool.and_eq_true .. |>.mp hb with ⟨h1, h2⟩
  exact h ⟨h1, by simpa using h2⟩

theorem loneClosePass_id {c : List Char} (h : ¬ (containsSub wrapClose c = true ∧ containsSub wrapOpen c = false)) :
    loneClosePass c = c := by
  unfold loneClosePass
  rw [if_neg]
  intro hb
  rcases Bool.and_eq_true .. |>.mp hb with ⟨h1, h2⟩
  exact h ⟨h1, by simpa using h2⟩

theorem clean_content_of_no_markers {x : List Char}
    (h1 : containsSub wrapOpen x = false) (h2 : containsSub wrapClose x = false)
    (h3 : containsSub funcOpen x = false) :
    _clean_content x = strip x := by
  unfold _clean_content
  have hb : bulkRemoved x = x := by
    unfold bulkRemoved
    rw [reSubRemove_no h1, reSubRemove_no h3]
  rw [hb, loneOpenPass_id (by simp [h1]), loneClosePass_id (by simp [h2])]

/-! ### Claim theorems -/

/-- C1: whenever the content contains the opening wrapper tag `<tool_call>`,
`is_complete_tool_call` is true exactly when the closing tag `</tool_call>` is
also present; in particular `<tool_call><function=f></function>` (wrapper
never closed) is not complete even though it holds a full function block. -/
theorem C1_wrapper_must_close :
    (∀ content : List Char, containsSub wrapOpen content = true →
      (is_complete_tool_call content = true ↔ containsSub wrapClose content = true)) ∧
    is_complete_tool_call ("<tool_call><function=f></function>".toList) = false := by
  constructor
  · intro content h
    unfold is_complete_tool_call
    rw [if_pos h]
  · decide

theorem C1_wrapper_must_close_witness :
    is_complete_tool_call (wrapOpen ++ wrapClose) = true :=
  (C1_wrapper_must_close.1 (wrapOpen ++ wrapClose) (by decide)).mpr (by decide)

/-- C10: a content reported complete always contains a full structural marker
(`<tool_call>` or `<function=`), so the partial detector also fires: complete
implies partial. -/
theorem C10_complete_implies_partial (content : List Char)
    (h : is_complete_tool_call content = true) :
    has_partial_tool_call content = true := by
  have hm : ∃ m ∈ markers, containsSub m content = true := by
    unfold is_complete_tool_call at h
    by_cases hw : containsSub wrapOpen content = true
    · exact ⟨wrapOpen, by simp [markers], hw⟩
    · rw [if_neg hw] at h
      unfold funcSpanSearch at h
      cases hs : splitFirstSub funcOpen content with
      | none => rw [hs] at h; simp at h
      | some p =>
        refine ⟨funcOpen, by simp [markers], ?_⟩
        unfold containsSub
        rw [hs]
        rfl
  unfold has_partial_tool_call
  rw [Bool.or_eq_true]
  left
  rw [List.any_eq_true]
  obtain ⟨m, hm1, hm2⟩ := hm
  exact ⟨m, hm1, hm2⟩

theorem C10_complete_implies_partial_witness :
    has_partial_tool_call ("<function=f></function>".toList) = true :=
  C10_complete_implies_partial _ (by decide)

/-- C4 counterexample: the one-character content `<` contains no markup tag at
all, yet `has_partial_tool_call` is true because the content ends with a
nonempty proper prefix of a marker — the claim asserts it would be false. -/
theorem C4_no_markup_counterexample :
    (∀ m ∈ markers, containsSub m ['<'] = false) ∧ has_partial_tool_call ['<'] = true := by
  decide

/-- C4 amended: on content with no marker occurrence that moreover does not
end in a nonempty proper prefix of a marker, the partial detector is false,
the complete detector is false, parsing yields no tool call for any hash, and
cleaning is exactly trimming. -/
theorem C4_no_markup_amended (content : List Char)
    (h1 : ∀ m ∈ markers, containsSub m content = false)
    (h2 : ∀ m ∈ markers, ∀ i ∈ List.range' 1 (m.length - 1),
      (m.take i).isSuffixOf content = false) :
    has_partial_tool_call content = false ∧
    is_complete_tool_call content = false ∧
    (∀ hash, parse_tool_calls hash content = []) ∧
    _clean_content content = strip content := by
  refine ⟨?_, ?_, ?_, ?_⟩
  · unfold has_partial_tool_call
    rw [Bool.or_eq_false_iff]
    constructor
    · rw [List.any_eq_false]
      intro m hm
      simp [h1 m hm]
    · rw [List.any_eq_false]
      intro m hm
      rw [Bool.not_eq_true, List.any_eq_false]
      intro i hi
      simp [h2 m hm i hi]
  · unfold is_complete_tool_call
    rw [if_neg (by simp [h1 wrapOpen (by simp [markers])])]
    unfold funcSpanSearch
    rw [splitFirstSub_eq_none (h1 funcOpen (by simp [markers]))]
  · exact parse_tool_calls_no (h1 funcOpen (by simp [markers]))
  · exact clean_content_of_no_markers
      (h1 wrapOpen (by simp [markers]))
      (h1 wrapClose (by simp [markers]))
      (h1 funcOpen (by simp [markers]))

theorem C4_no_markup_amended_witness :
    has_partial_tool_call ("hello".toList) = false ∧
    _clean_content ("hello".toList) = strip ("hello".toList) := by
  have h := C4_no_markup_amended ("hello".toList) (by decide) (by decide)
  exact ⟨h.1, h.2.2.2⟩

/-- C5 counterexample: removing a standalone function span can splice the
surrounding text into a fresh wrapped span, so one more clean removes more:
`cleanContent` is not idempotent. -/
theorem C5_idempotent_counterexample :
    _clean_content (_clean_content
      ("<tool_<function=a></function>call>hello</tool_call>".toList)) ≠
    _clean_content ("<tool_<function=a></function>call>hello</tool_call>".toList) := by
  decide

/-- C5 amended: `cleanContent` is idempotent on every content in which none of
`<tool_call>`, `</tool_call>`, `<function=` occurs (cleaning is then exactly
trimming); in general span removal can splice tag fragments into new tags and
a second clean removes more. -/
theorem C5_idempotent_amended (x : List Char)
    (h1 : containsSub wrapOpen x = false) (h2 : containsSub wrapClose x = false)
    (h3 : containsSub funcOpen x = false) :
    _clean_content (_clean_content x) = _clean_content x := by
  have transfer : ∀ pat : List Char, containsSub pat x = false →
      containsSub pat (strip x) = false := by
    intro pat hp
    cases hcs : containsSub pat (strip x) with
    | false => rfl
    | true => rw [containsSub_of_strip hcs] at hp; exact absurd hp (by simp)
  have hc : _clean_content x = strip x := clean_content_of_no_markers h1 h2 h3
  rw [hc, clean_content_of_no_markers (transfer _ h1) (transfer _ h2) (transfer _ h3),
    strip_strip]

theorem C5_idempotent_amended_witness :
    _clean_content (_clean_content ("hello".toList)) = _clean_content ("hello".toList) :=
  C5_idempotent_amended ("hello".toList) (by decide) (by decide) (by decide)

/-- C7 counterexample: in `<tool_call>a</tool_call><tool_call>b` the closing
tag does occur in the original text, yet after bulk removal the remaining
lone `<tool_call>` is stripped (output `b`): the lone-tag check consults the
post-removal text, not the original input, so the claim is false. -/
theorem C7_lone_tag_counterexample :
    containsSub wrapClose ("<tool_call>a</tool_call><tool_call>b".toList) = true ∧
    containsSub wrapOpen (bulkRemoved ("<tool_call>a</tool_call><tool_call>b".toList)) = true ∧
    _clean_content ("<tool_call>a</tool_call><tool_call>b".toList) = "b".toList ∧
    containsSub wrapOpen (_clean_content ("<tool_call>a</tool_call><tool_call>b".toList)) = false := by
  decide

/-- C7 amended: the lone-tag strips are decided against the text remaining
after bulk removal, not against the original input; in particular when both
wrapper tags are still present after bulk removal, neither lone-tag pass runs
and both tags survive into the cleaned output. -/
theorem C7_lone_tag_amended (x : List Char)
    (h1 : containsSub wrapOpen (bulkRemoved x) = true)
    (h2 : containsSub wrapClose (bulkRemoved x) = true) :
    containsSub wrapOpen (_clean_content x) = true ∧
    containsSub wrapClose (_clean_content x) = true := by
  have hclean : _clean_content x = strip (bulkRemoved x) := by
    unfold _clean_content
    rw [loneOpenPass_id (by simp [h2]), loneClosePass_id (by simp [h1])]
  rw [hclean]
  exact ⟨containsSub_strip (by decide) (by decide) h1,
    containsSub_strip (by decide) (by decide) h2⟩

theorem C7_lone_tag_amended_witness :
    containsSub wrapOpen (_clean_content ("</tool_call>text<tool_call>".toList)) = true ∧
    containsSub wrapClose (_clean_content ("</tool_call>text<tool_call>".toList)) = true :=
  C7_lone_tag_amended ("</tool_call>text<tool_call>".toList) (by decide) (by decide)

/-- C9 counterexample: `<function=></function>` parses to one ToolCall whose
name is the empty string, so names are not always non-empty. -/
theorem C9_empty_name_counterexample :
    (parse_tool_calls pyHashModel ("<function=></function>".toList)).map ToolCall.name
      = [[]] := by
  decide

/-- C9 amended: every name produced by `parse_tool_calls` equals its own trim
(the source strips it), though it can be empty when the block's name field is
empty or all whitespace. -/
theorem C9_names_trimmed (hash : List Char → Nat) (content : List Char) :
    (parse_tool_calls hash content).map (fun tc => strip tc.name) =
      (parse_tool_calls hash content).map ToolCall.name := by
  rw [parse_tool_calls_eq_map, List.map_map, List.map_map]
  apply List.map_congr_left
  intro im _
  show strip (mkToolCallAt hash im.1 im.2).name = (mkToolCallAt hash im.1 im.2).name
  unfold mkToolCallAt
  exact strip_strip _

instance noBorderDecidable (pat : List Char) : Decidable (NoBorder pat) :=
  inferInstanceAs (Decidable (∀ m : Fin pat.length, 0 < (m : Nat) →
    pat.take m ≠ pat.drop (pat.length - m)))

/-- A prefix of `a ++ pat` that contains `pat` is the whole of `a ++ pat`,
when `pat` has no border and does not occur inside `a`. -/
theorem prefix_contains_pat {pat a P : List Char} (hnb : NoBorder pat)
    (hna : ¬ ∃ b c, a = b ++ pat ++ c) (hP : P <+: a ++ pat)
    (hin : containsSub pat P = true) : P = a ++ pat := by
  obtain ⟨b, t, rfl⟩ := containsSub_iff.mp hin
  obtain ⟨r, hr⟩ := hP
  by_cases hlen : b.length ≤ a.length
  · have h1 : (a ++ pat).take b.length = a.take b.length := by
      rw [List.take_append_eq_append_take, Nat.sub_eq_zero_of_le hlen]
      simp
    have h2 : ((b ++ pat ++ t) ++ r).take b.length = b := by
      rw [List.append_assoc, List.append_assoc, List.take_append_eq_append_take]
      simp
    rw [hr, h1] at h2
    have hable : a = b ++ a.drop b.length := by
      conv_lhs => rw [← List.take_append_drop b.length a]
      rw [h2]
    have hdecomp : pat ++ (t ++ r) = a.drop b.length ++ pat := by
      have hx : b ++ (pat ++ (t ++ r)) = b ++ (a.drop b.length ++ pat) := by
        calc b ++ (pat ++ (t ++ r)) = (b ++ pat ++ t) ++ r := by simp [List.append_assoc]
          _ = a ++ pat := hr
          _ = (b ++ a.drop b.length) ++ pat := by rw [← hable]
          _ = b ++ (a.drop b.length ++ pat) := by simp [List.append_assoc]
      exact List.append_cancel_left hx
    have hdrop_nil : a.drop b.length = [] := by
      apply pat_overlap_nil (y := []) hnb
      · rintro ⟨u, v, huv⟩
        apply hna
        refine ⟨a.take b.length ++ u, v, ?_⟩
        conv_lhs => rw [← List.take_append_drop b.length a]
        rw [huv]
        simp
      · refine ⟨t ++ r, ?_⟩
        rw [hdecomp]
        simp
    have ha_eq : a = b := by rw [hable, hdrop_nil, List.append_nil]
    have htr : t ++ r = [] := by
      have hx : (b ++ pat) ++ (t ++ r) = (b ++ pat) ++ [] := by
        calc (b ++ pat) ++ (t ++ r) = (b ++ pat ++ t) ++ r := by simp [List.append_assoc]
          _ = a ++ pat := hr
          _ = (b ++ pat) ++ [] := by rw [ha_eq]; simp
      exact List.append_cancel_left hx
    obtain ⟨ht0, hr0⟩ := List.append_eq_nil.mp htr
    rw [ht0, ha_eq]
    simp
  · exfalso
    have hlr := congrArg List.length hr
    simp [List.length_append] at hlr
    omega

/-- A single complete wrapped tool-call text per the grammar: the wrapper pair
around a body that does not already contain the closing tag. -/
def completeWrappedText (T : List Char) : Prop :=
  ∃ mid, T = wrapOpen ++ mid ++ wrapClose ∧
    containsSub wrapClose (wrapOpen ++ mid) = false

/-- A single complete standalone function-block text per the grammar: the
function block literals around content without a premature closing tag and
with no wrapper opening tag anywhere. -/
def completeStandaloneText (T : List Char) : Prop :=
  ∃ body, T = funcOpen ++ body ++ funcClose ∧
    containsSub funcClose (funcOpen ++ body) = false ∧
    containsSub wrapOpen T = false

/-- C2 counterexample: the complete standalone block
`<function=f><parameter=x><tool_call></tool_call></parameter></function>`
(one parameter whose verbatim value is a wrapper pair) is complete, yet its
strict prefix ending right after `</tool_call>` is already reported complete:
truncation monotonicity fails. -/
theorem C2_truncation_counterexample :
    is_complete_tool_call
      ("<function=f><parameter=x><tool_call></tool_call></parameter></function>".toList) = true ∧
    ("<function=f><parameter=x><tool_call></tool_call></parameter></function>".toList).take 48 <+:
      ("<function=f><parameter=x><tool_call></tool_call></parameter></function>".toList) ∧
    ("<function=f><parameter=x><tool_call></tool_call></parameter></function>".toList).take 48 ≠
      ("<function=f><parameter=x><tool_call></tool_call></parameter></function>".toList) ∧
    is_complete_tool_call
      (("<function=f><parameter=x><tool_call></tool_call></parameter></function>".toList).take 48) = true := by
  refine ⟨by decide, List.take_prefix _ _, by decide, by decide⟩

/-- C2 amended: truncation monotonicity holds for every complete tool-call
text that does not embed wrapper tags in its interior: for wrapped texts whose
body has no early closing tag, and for standalone function blocks with no
early `</function>` and no `<tool_call>` anywhere, every strict prefix is
reported incomplete. -/
theorem C2_truncation_amended (T P : List Char)
    (hT : completeWrappedText T ∨ completeStandaloneText T)
    (hP : P <+: T) (hPne : P ≠ T) : is_complete_tool_call P = false := by
  rcases hT with ⟨mid, rfl, hmid⟩ | ⟨body, rfl, hfc, hwo⟩
  · by_cases hw : containsSub wrapOpen P = true
    · unfold is_complete_tool_call
      rw [if_pos hw]
      cases hcc : containsSub wrapClose P with
      | false => rfl
      | true =>
        exfalso
        apply hPne
        have hPeq : P = (wrapOpen ++ mid) ++ wrapClose := by
          apply prefix_contains_pat (by decide) (containsSub_eq_false.mp hmid) ?_ hcc
          simpa [List.append_assoc] using hP
        simpa [List.append_assoc] using hPeq
    · unfold is_complete_tool_call
      rw [if_neg hw]
      unfold funcSpanSearch
      cases hs : splitFirstSub funcOpen P with
      | none => rfl
      | some p =>
        exfalso
        obtain ⟨p1, p2⟩ := p
        have hPsub : P = p1 ++ funcOpen ++ p2 := splitFirstSub_some (by simpa using hs)
        have hfo : funcOpen.length = 10 := by decide
        have hwol : wrapOpen.length = 11 := by decide
        have hwT : wrapOpen <+: wrapOpen ++ mid ++ wrapClose := ⟨mid ++ wrapClose, by simp⟩
        have hlenP := congrArg List.length hPsub
        simp only [List.length_append] at hlenP
        rw [hfo] at hlenP
        by_cases hbig : 11 ≤ P.length
        · have hwp : wrapOpen <+: P :=
            List.prefix_of_prefix_length_le hwT hP (by omega)
          obtain ⟨rr, hrr⟩ := hwp
          exact hw (containsSub_iff.mpr ⟨[], rr, by simp [← hrr]⟩)
        · push_neg at hbig
          have hp1 : p1 = [] := List.eq_nil_of_length_eq_zero (by omega)
          have hp2 : p2 = [] := List.eq_nil_of_length_eq_zero (by omega)
          rw [hp1, hp2] at hPsub
          simp only [List.nil_append, List.append_nil] at hPsub
          have hpw : P <+: wrapOpen :=
            List.prefix_of_prefix_length_le hP hwT (by omega)
          rw [hPsub] at hpw
          exact absurd hpw (by decide)
  · by_cases hw : containsSub wrapOpen P = true
    · exfalso
      rw [containsSub_iff] at hw
      obtain ⟨b, a, hba⟩ := hw
      obtain ⟨r, hr⟩ := hP
      have hin : containsSub wrapOpen (funcOpen ++ body ++ funcClose) = true := by
        rw [containsSub_iff]
        exact ⟨b, a ++ r, by rw [← hr, hba]; simp⟩
      rw [hin] at hwo
      exact absurd hwo (by simp)
    · unfold is_complete_tool_call
      rw [if_neg hw]
      unfold funcSpanSearch
      cases hs : splitFirstSub funcOpen P with
      | none => rfl
      | some p =>
        obtain ⟨p1, p2⟩ := p
        have hPsub : P = p1 ++ funcOpen ++ p2 := splitFirstSub_some (by simpa using hs)
        cases hcc : containsSub funcClose p2 with
        | false => exact hcc
        | true =>
          exfalso
          apply hPne
          have hPin : containsSub funcClose P = true := by
            rw [containsSub_iff] at hcc ⊢
            obtain ⟨u, v, huv⟩ := hcc
            exact ⟨p1 ++ funcOpen ++ u, v, by rw [hPsub, huv]; simp⟩
          have hPeq : P = (funcOpen ++ body) ++ funcClose := by
            apply prefix_contains_pat (by decide) (containsSub_eq_false.mp hfc) ?_ hPin
            simpa [List.append_assoc] using hP
          simpa [List.append_assoc] using hPeq

theorem C2_truncation_amended_witness :
    is_complete_tool_call
      (("<function=get_weather><parameter=city>Paris</parameter></function>".toList).take 20) = false :=
  C2_truncation_amended
    ("<function=get_weather><parameter=city>Paris</parameter></function>".toList) _
    (Or.inr ⟨"get_weather><parameter=city>Paris</parameter>".toList, by decide, by decide, by decide⟩)
    (List.take_prefix _ _) (by decide)

/-- C8 counterexample: under the modelled string hash, the two-block content
`<function=aesazck></function><function=skakbwe></function>` yields two tool
calls whose hash-derived ids coincide modulo 10^9, so ids are not always
pairwise distinct. -/
theorem C8_id_collision_counterexample :
    (parse_tool_calls pyHashModel
      ("<function=aesazck></function><function=skakbwe></function>".toList)).length = 2 ∧
    ¬ ((parse_tool_calls pyHashModel
      ("<function=aesazck></function><function=skakbwe></function>".toList)).map
        ToolCall.id).Nodup := by
  constructor
  · decide
  · decide

/-- C8 amended: for any hash function, the ids of one `parse_tool_calls` run
are pairwise distinct whenever the hash values modulo 10^9 of the
position-tagged key strings are pairwise distinct (the keys themselves are
built from the per-run index, but the modulus can identify two hashes). -/
theorem C8_ids_distinct_amended (hash : List Char → Nat) (content : List Char)
    (h : ((parseKeys content).map (fun k => hash k % 1000000000)).Nodup) :
    ((parse_tool_calls hash content).map ToolCall.id).Nodup := by
  rw [parse_tool_calls_eq_map, List.map_map]
  have hform : (ToolCall.id ∘ fun im => mkToolCallAt hash im.1 im.2) =
      (fun im : Nat × (List Char × List Char) =>
        natToDec (hash (toolCallKey (strip im.2.1) im.1 im.1) % 1000000000)) := rfl
  rw [hform]
  have hkeys : ((reFindallBlocks funcOpen funcClose content).enum.map
      (fun im : Nat × (List Char × List Char) =>
        natToDec (hash (toolCallKey (strip im.2.1) im.1 im.1) % 1000000000))) =
      (((parseKeys content).map (fun k => hash k % 1000000000)).map natToDec) := by
    unfold parseKeys
    rw [List.map_map, List.map_map]
    rfl
  rw [hkeys]
  exact h.map natToDec_inj

theorem C8_ids_distinct_amended_witness :
    ((parse_tool_calls pyHashModel
      ("<function=a></function><function=b></function>".toList)).map ToolCall.id).Nodup :=
  C8_ids_distinct_amended pyHashModel
    ("<function=a></function><function=b></function>".toList) (by decide)

theorem foldl_params_map (params : List (List Char × List Char)) :
    params.foldl
      (fun arguments pm => assocUpd (strip pm.1) (pyDecodeValue (strip pm.2)) arguments) [] =
    (params.map (fun q => (strip q.1, pyDecodeValue (strip q.2)))).foldl
      (fun d p => assocUpd p.1 p.2 d) [] :=
  (List.foldl_map (fun q : List Char × List Char => (strip q.1, pyDecodeValue (strip q.2)))
    (fun d p => assocUpd p.1 p.2 d) params []).symm

theorem find?_map_comm {α β : Type} (f : α → β) (pr : β → Bool) (l : List α) :
    (l.map f).find? pr = (l.find? (fun a => pr (f a))).map f := by
  induction l with
  | nil => rfl
  | cons a l ih =>
    simp only [List.map_cons, List.find?]
    by_cases h : pr (f a)
    · rw [h]; rfl
    · rw [Bool.not_eq_true] at h
      rw [h]
      exact ih

/-- C3: a single complete function block parses to exactly one tool call; its
arguments mapping has one entry per distinct trimmed parameter name, keys keep
first-seen order, a repeated name keeps the last occurrence's decoded value;
and concretely the Paris example yields one call named get_weather with
arguments city ↦ Paris. -/
theorem C3_single_function_block :
    (∀ (name : List Char) (params : List (List Char × List Char)),
      '>' ∉ name →
      containsSub funcClose (mkBlocks paramOpen paramClose params) = false →
      (∀ q ∈ params, '>' ∉ q.1 ∧ containsSub paramClose q.2 = false) →
      ∀ hash, ∃ tc : ToolCall,
        parse_tool_calls hash
          (mkBlocks funcOpen funcClose
            [(name, mkBlocks paramOpen paramClose params)]) = [tc] ∧
        tc.name = strip name ∧
        tc.arguments.map Prod.fst = specFirstSeenKeys (params.map (fun q => strip q.1)) ∧
        tc.arguments.length = (params.map (fun q => strip q.1)).dedup.length ∧
        (∀ k, dictGet k tc.arguments =
          (params.reverse.find? (fun q => decide (strip q.1 = k))).map
            (fun q => pyDecodeValue (strip q.2)))) ∧
    (parse_tool_calls pyHashModel
      ("<function=get_weather><parameter=city>Paris</parameter></function>".toList)).map
        (fun tc => (tc.name, tc.arguments)) =
      [("get_weather".toList, [("city".toList, PyVal.str "Paris".toList)])] := by
  constructor
  · intro name params hn hpt hp hash
    have hfind : reFindallBlocks funcOpen funcClose
        (mkBlocks funcOpen funcClose [(name, mkBlocks paramOpen paramClose params)]) =
        [(name, mkBlocks paramOpen paramClose params)] := by
      apply reFindallBlocks_blocks (by decide) (by decide) (by decide)
      intro q hq
      rw [List.mem_singleton] at hq
      subst hq
      exact ⟨hn, containsSub_eq_false.mp hpt⟩
    have hparamfind : reFindallBlocks paramOpen paramClose
        (mkBlocks paramOpen paramClose params) = params := by
      apply reFindallBlocks_blocks (by decide) (by decide) (by decide)
      intro q hq
      exact ⟨(hp q hq).1, containsSub_eq_false.mp (hp q hq).2⟩
    refine ⟨mkToolCallAt hash 0 (name, mkBlocks paramOpen paramClose params), ?_, rfl, ?_, ?_, ?_⟩
    · rw [parse_tool_calls_eq_map, hfind]
      rfl
    · show (parseParams (mkBlocks paramOpen paramClose params)).map Prod.fst = _
      unfold parseParams
      rw [hparamfind, foldl_params_map]
      rw [foldl_assocUpd_keys, List.map_map]
      rfl
    · show (parseParams (mkBlocks paramOpen paramClose params)).length = _
      have hkeys : (parseParams (mkBlocks paramOpen paramClose params)).map Prod.fst =
          specFirstSeenKeys (params.map (fun q => strip q.1)) := by
        unfold parseParams
        rw [hparamfind, foldl_params_map]
        rw [foldl_assocUpd_keys, List.map_map]
        rfl
      calc (parseParams (mkBlocks paramOpen paramClose params)).length
          = ((parseParams (mkBlocks paramOpen paramClose params)).map Prod.fst).length :=
            (List.length_map _ _).symm
        _ = (specFirstSeenKeys (params.map (fun q => strip q.1))).length := by rw [hkeys]
        _ = (params.map (fun q => strip q.1)).dedup.length := specFirstSeenKeys_length _
    · intro k
      show dictGet k (parseParams (mkBlocks paramOpen paramClose params)) = _
      unfold parseParams
      rw [hparamfind, foldl_params_map]
      rw [dictGet_foldl_assocUpd]
      rw [show (params.map (fun q => (strip q.1, pyDecodeValue (strip q.2)))).reverse =
        params.reverse.map (fun q => (strip q.1, pyDecodeValue (strip q.2))) from
          (List.map_reverse _ _).symm]
      rw [find?_map_comm]
      cases hf : params.reverse.find? (fun q => decide (strip q.1 = k)) with
      | none => rfl
      | some q => rfl
  · rfl

theorem C3_single_function_block_witness :
    (parse_tool_calls pyHashModel
      (mkBlocks funcOpen funcClose [("get_weather".toList,
        mkBlocks paramOpen paramClose [("city".toList, "Paris".toList)])])).length = 1 := by
  obtain ⟨tc, h1, -⟩ := C3_single_function_block.1 ("get_weather".toList)
    [("city".toList, "Paris".toList)] (by decide) (by decide) (by decide) pyHashModel
  rw [h1]
  rfl

/-- C6: a raw parameter value is JSON-decoded exactly when it begins with `[`
or `{` and the modelled `json.loads` succeeds; otherwise (non-bracket start,
or any decode failure) the raw string is stored and no error escapes.
Concretely, `[1,2,3]` decodes to the JSON array 1,2,3 in the wrapped scenario
input, and the malformed `[1,2` falls back to the raw string. -/
theorem C6_json_value_decoding :
    (∀ (v : List Char) (j : Json), jsonLoads v = some j →
      (v.head? = some '[' ∨ v.head? = some '{') → pyDecodeValue v = PyVal.json j) ∧
    (∀ v : List Char, jsonLoads v = none → pyDecodeValue v = PyVal.str v) ∧
    (∀ v : List Char, v.head? ≠ some '[' → v.head? ≠ some '{' →
      pyDecodeValue v = PyVal.str v) ∧
    (parse_tool_calls pyHashModel
      ("<tool_call><function=f><parameter=x>[1,2,3]</parameter></function></tool_call>".toList)).map
        (fun tc => (tc.name, tc.arguments)) =
      [("f".toList, [("x".toList,
        PyVal.json (Json.arr [Json.num 1, Json.num 2, Json.num 3]))])] ∧
    (parse_tool_calls pyHashModel
      ("<tool_call><function=f><parameter=x>[1,2</parameter></function></tool_call>".toList)).map
        (fun tc => (tc.name, tc.arguments)) =
      [("f".toList, [("x".toList, PyVal.str "[1,2".toList)])] := by
  refine ⟨?_, ?_, ?_, rfl, rfl⟩
  · intro v j hj hhead
    unfold pyDecodeValue
    rw [if_pos (by rcases hhead with h | h <;> simp [h]), hj]
  · intro v hj
    unfold pyDecodeValue
    by_cases hhead : (v.head? = some '[' || v.head? = some '{') = true
    · rw [if_pos hhead, hj]
    · rw [if_neg hhead]
  · intro v h1 h2
    unfold pyDecodeValue
    rw [if_neg (by simp [h1, h2])]

theorem C6_json_value_decoding_witness :
    pyDecodeValue ("[1,2,3]".toList) =
      PyVal.json (Json.arr [Json.num 1, Json.num 2, Json.num 3]) :=
  C6_json_value_decoding.1 ("[1,2,3]".toList)
    (Json.arr [Json.num 1, Json.num 2, Json.num 3]) rfl (Or.inl rfl)
